import Mathlib

/-!
Verification development for the wordle-solver repository
(src/wordle_solver/solver.py and src/wordle_solver/simulate_wordle.py).

Words are modelled as `List Char`, feedback patterns as `List Nat` with
0 = Absent (gray), 1 = Present (yellow), 2 = Correct (green), exactly as the
Python sources use the integers 0/1/2.  Python floats produced by
`math.log2` / `np.log2` are modelled as real numbers.
-/

/-- Words are ordered sequences of characters (Python strings). -/
abbrev Word := List Char

/-- Helper for pass 2 of `get_feedback`: the Python statement
`ans_letters[ans_letters.index(guess[i])] = None` replaces the first
occurrence of the letter `c` in the mutable answer-letter list by `None`. -/
def removeFirst : List (Option Char) → Char → List (Option Char)
  | [], _ => []
  | x :: xs, c => if x = some c then none :: xs else x :: removeFirst xs c

/-- Pass 1 of `get_feedback` (solver.py lines 21-24, simulate_wordle.py
lines 20-23): for each of the first 5 positions, if `guess[i] == answer[i]`
the feedback digit is 2 and the answer letter at that position is consumed
(set to `none`); otherwise the digit is 0 and the answer letter is kept.
The fuel argument is the literal `range(5)` bound; answer letters beyond the
first 5 positions are kept unconsumed, as in `list(answer)`. -/
def pass1 : Nat → List Char → List Char → List Nat × List (Option Char)
  | 0, _, a => ([], a.map some)
  | _ + 1, [], a => ([], a.map some)
  | _ + 1, _ :: _, [] => ([], [])
  | n + 1, gc :: gs, ac :: as_ =>
      let r := pass1 n gs as_
      if gc = ac then (2 :: r.1, none :: r.2) else (0 :: r.1, (some ac) :: r.2)

/-- Pass 2 of `get_feedback` (solver.py lines 26-29, simulate_wordle.py
lines 24-27): a position with digit 0 whose guess letter still occurs in the
remaining answer-letter multiset is marked 1 (Present) and consumes the first
occurrence of that letter; every other position keeps its digit. -/
def pass2 : List Char → List Nat → List (Option Char) → List Nat × List (Option Char)
  | [], _, ans => ([], ans)
  | _ :: _, [], ans => ([], ans)
  | gc :: gs, f :: fs, ans =>
      if f = 0 ∧ some gc ∈ ans then
        let r := pass2 gs fs (removeFirst ans gc)
        (1 :: r.1, r.2)
      else
        let r := pass2 gs fs ans
        (f :: r.1, r.2)

/-- Embeds `get_feedback` (solver.py lines 17-31; the identical function at
simulate_wordle.py lines 17-28): the two-pass feedback computation.  This is
the total core; it agrees with the Python function whenever the Python
function does not raise (both words of length at least 5, which the word
lists guarantee with length exactly 5). -/
def get_feedback (guess answer : Word) : List Nat :=
  let r1 := pass1 5 guess answer
  (pass2 guess r1.1 r1.2).1

/-- Embeds the partiality of the Python `get_feedback`: the function indexes
`guess[i]` and `answer[i]` for `i in range(5)`, so it raises `IndexError`
exactly when one of the words is shorter than 5 characters (`none` here);
no other validation of any kind is performed. -/
def get_feedback_checked (guess answer : Word) : Option (List Nat) :=
  if 5 ≤ guess.length ∧ 5 ≤ answer.length then some (get_feedback guess answer) else none

/-- Embeds `filter_words` (solver.py lines 34-35):
`[w for w in words if get_feedback(guess, w) == feedback]`. -/
def filter_words (words : List Word) (guess : Word) (feedback : List Nat) : List Word :=
  words.filter (fun w => decide (get_feedback guess w = feedback))

/-- Embeds `feedback_to_int` (simulate_wordle.py lines 30-34): base-3
encoding of a feedback pattern, most significant digit first. -/
def feedback_to_int (fb : List Nat) : Nat :=
  (fb.enum.map (fun p => p.2 * 3 ^ (4 - p.1))).sum

/-- Embeds the decoding expression at simulate_wordle.py line 97:
`[(fb // 3**(4-i)) % 3 for i in range(5)]`. -/
def int_to_feedback (n : Nat) : List Nat :=
  (List.range 5).map (fun i => n / 3 ^ (4 - i) % 3)

/-! ### Structural lemmas about the two passes -/

theorem pass1_length (n : Nat) (g a : List Char) :
    (pass1 n g a).1.length = min n (min g.length a.length) := by
  induction n generalizing g a with
  | zero => simp [pass1]
  | succ n ih =>
    cases g with
    | nil => simp [pass1]
    | cons gc gs =>
      cases a with
      | nil => simp [pass1]
      | cons ac as_ =>
        simp only [pass1]
        split <;> simp [ih, Nat.succ_min_succ]

theorem pass2_length (g : List Char) (fb : List Nat) (ans : List (Option Char)) :
    (pass2 g fb ans).1.length = min g.length fb.length := by
  induction g generalizing fb ans with
  | nil => simp [pass2]
  | cons gc gs ih =>
    cases fb with
    | nil => simp [pass2]
    | cons f fs =>
      simp only [pass2]
      split <;> simp [ih, Nat.succ_min_succ]

theorem get_feedback_length (g a : Word) (hg : 5 ≤ g.length) (ha : 5 ≤ a.length) :
    (get_feedback g a).length = 5 := by
  simp [get_feedback, pass2_length, pass1_length]
  omega

/-- Pass 1 produces only the digits 0 and 2. -/
theorem pass1_digits (n : Nat) (g a : List Char) :
    ∀ f ∈ (pass1 n g a).1, f = 0 ∨ f = 2 := by
  induction n generalizing g a with
  | zero => simp [pass1]
  | succ n ih =>
    cases g with
    | nil => simp [pass1]
    | cons gc gs =>
      cases a with
      | nil => simp [pass1]
      | cons ac as_ =>
        simp only [pass1]
        split
        · intro f hf
          rcases List.mem_cons.mp hf with h | h
          · right; exact h
          · exact ih gs as_ f h
        · intro f hf
          rcases List.mem_cons.mp hf with h | h
          · left; exact h
          · exact ih gs as_ f h

/-- Every digit of the pass-2 output is 1 or was already in the input. -/
theorem pass2_digits (g : List Char) (fb : List Nat) (ans : List (Option Char)) :
    ∀ f ∈ (pass2 g fb ans).1, f = 1 ∨ f ∈ fb := by
  induction g generalizing fb ans with
  | nil => simp [pass2]
  | cons gc gs ih =>
    cases fb with
    | nil => simp [pass2]
    | cons f0 fs =>
      simp only [pass2]
      split
      · intro f hf
        rcases List.mem_cons.mp hf with h | h
        · left; exact h
        · rcases ih fs (removeFirst ans gc) f h with h1 | h1
          · left; exact h1
          · right; exact List.mem_cons_of_mem _ h1
      · intro f hf
        rcases List.mem_cons.mp hf with h | h
        · right; exact h ▸ List.mem_cons_self _ _
        · rcases ih fs ans f h with h1 | h1
          · left; exact h1
          · right; exact List.mem_cons_of_mem _ h1

/-- All digits of a feedback pattern are at most 2. -/
theorem get_feedback_digits (g a : Word) : ∀ f ∈ get_feedback g a, f < 3 := by
  intro f hf
  rcases pass2_digits g (pass1 5 g a).1 (pass1 5 g a).2 f hf with h | h
  · omega
  · rcases pass1_digits 5 g a f h with h1 | h1 <;> omega

/-! ### Letter-count accounting through the two passes (claim C1) -/

theorem removeFirst_count (ans : List (Option Char)) (c x : Char) (hm : some c ∈ ans) :
    (removeFirst ans c).count (some x) + (if x = c then 1 else 0) = ans.count (some x) := by
  induction ans with
  | nil => simp at hm
  | cons h t ih =>
    by_cases hc : h = some c
    · subst hc
      simp only [removeFirst, if_pos rfl]
      by_cases hx : x = c
      · subst hx
        simp [List.count_cons]
      · have : c ≠ x := fun hcx => hx hcx.symm
        simp [List.count_cons, hx, this]
    · have hm' : some c ∈ t := by
        rcases List.mem_cons.mp hm with h1 | h1
        · exact absurd h1.symm hc
        · exact h1
      simp only [removeFirst, if_neg hc]
      rw [List.count_cons, List.count_cons]
      have H := ih hm'
      omega

theorem count_map_some (a : List Char) (c : Char) :
    (a.map some).count (some c) = a.count c := by
  induction a with
  | nil => rfl
  | cons x t ih => by_cases hx : x = c <;> simp [List.count_cons, hx, ih]

theorem pass1_count (n : Nat) (g a : List Char) (c : Char) :
    (g.zip (pass1 n g a).1).countP (fun p => decide (p.1 = c) && decide (p.2 = 2))
      + (pass1 n g a).2.count (some c) = a.count c := by
  induction n generalizing g a with
  | zero =>
    simpa [pass1] using count_map_some a c
  | succ n ih =>
    cases g with
    | nil =>
      simpa [pass1] using count_map_some a c
    | cons gc gs =>
      cases a with
      | nil => simp [pass1]
      | cons ac as_ =>
        simp only [pass1]
        have H := ih gs as_
        split
        · rename_i h
          simp only [List.zip_cons_cons, List.countP_cons, List.count_cons]
          by_cases hc : gc = c
          · subst hc
            subst h
            simp at H ⊢
            omega
          · have hac : ac ≠ c := h ▸ hc
            simp [hc, hac] at H ⊢
            omega
        · rename_i h
          simp only [List.zip_cons_cons, List.countP_cons, List.count_cons]
          by_cases hac : ac = c
          · subst hac
            simp at H ⊢
            omega
          · simp [hac] at H ⊢
            omega

theorem pass2_count1 (g : List Char) (fb : List Nat) (ans : List (Option Char)) (c : Char) :
    (g.zip (pass2 g fb ans).1).countP (fun p => decide (p.1 = c) && decide (p.2 = 1))
      + (pass2 g fb ans).2.count (some c)
    = (g.zip fb).countP (fun p => decide (p.1 = c) && decide (p.2 = 1)) + ans.count (some c) := by
  induction g generalizing fb ans with
  | nil => simp [pass2]
  | cons gc gs ih =>
    cases fb with
    | nil => simp [pass2]
    | cons f fs =>
      simp only [pass2]
      split
      · rename_i h
        obtain ⟨hf, hmem⟩ := h
        subst hf
        simp only [List.zip_cons_cons, List.countP_cons]
        have H := ih fs (removeFirst ans gc)
        have R := removeFirst_count ans gc c hmem
        by_cases hc : gc = c
        · subst hc
          simp at H R ⊢
          omega
        · have hcg : c ≠ gc := fun hx => hc hx.symm
          simp [hc, hcg] at H R ⊢
          omega
      · simp only [List.zip_cons_cons, List.countP_cons]
        have H := ih fs ans
        omega

theorem pass2_count2 (g : List Char) (fb : List Nat) (ans : List (Option Char)) (c : Char) :
    (g.zip (pass2 g fb ans).1).countP (fun p => decide (p.1 = c) && decide (p.2 = 2))
    = (g.zip fb).countP (fun p => decide (p.1 = c) && decide (p.2 = 2)) := by
  induction g generalizing fb ans with
  | nil => simp [pass2]
  | cons gc gs ih =>
    cases fb with
    | nil => simp [pass2]
    | cons f fs =>
      simp only [pass2]
      split
      · rename_i h
        obtain ⟨hf, hmem⟩ := h
        subst hf
        simp only [List.zip_cons_cons, List.countP_cons]
        have H := ih fs (removeFirst ans gc)
        simp at H ⊢
        omega
      · simp only [List.zip_cons_cons, List.countP_cons]
        have H := ih fs ans
        omega

theorem pass1_no_one (n : Nat) (g a : List Char) (c : Char) :
    (g.zip (pass1 n g a).1).countP (fun p => decide (p.1 = c) && decide (p.2 = 1)) = 0 := by
  rw [List.countP_eq_zero]
  intro p hp
  have h2 := (List.of_mem_zip hp).2
  rcases pass1_digits n g a p.2 h2 with h | h <;> simp [h]

theorem countP_split (l : List (Char × Nat)) (c : Char) (hv : ∀ p ∈ l, p.2 < 3) :
    l.countP (fun p => decide (p.1 = c) && !decide (p.2 = 0))
      = l.countP (fun p => decide (p.1 = c) && decide (p.2 = 1))
        + l.countP (fun p => decide (p.1 = c) && decide (p.2 = 2)) := by
  induction l with
  | nil => simp
  | cons p t ih =>
    have hp := hv p (List.mem_cons_self p t)
    have ht : ∀ q ∈ t, q.2 < 3 := fun q hq => hv q (List.mem_cons_of_mem p hq)
    have IH := ih ht
    simp only [List.countP_cons]
    have hcase : p.2 = 0 ∨ p.2 = 1 ∨ p.2 = 2 := by omega
    rcases hcase with h | h | h <;> by_cases hc : p.1 = c <;> simp [h, hc] <;> omega

/-- Core counting fact: for every letter `c`, the number of guess positions
marked Present or Correct with letter `c` never exceeds the number of
occurrences of `c` in the answer. -/
theorem feedback_count (g a : Word) (c : Char) :
    (g.zip (get_feedback g a)).countP (fun p => decide (p.1 = c ∧ p.2 ≠ 0)) ≤ a.count c := by
  have hgf : get_feedback g a = (pass2 g (pass1 5 g a).1 (pass1 5 g a).2).1 := rfl
  have hv : ∀ p ∈ g.zip (get_feedback g a), p.2 < 3 := by
    intro p hp
    exact get_feedback_digits g a p.2 (List.of_mem_zip hp).2
  rw [hgf] at hv ⊢
  simp only [Bool.decide_and, decide_not]
  rw [countP_split _ c hv]
  have e1 := pass2_count1 g (pass1 5 g a).1 (pass1 5 g a).2 c
  have e2 := pass2_count2 g (pass1 5 g a).1 (pass1 5 g a).2 c
  have e3 := pass1_count 5 g a c
  have e4 := pass1_no_one 5 g a c
  omega

/-! ### Position-wise marking: a digit is 2 exactly at exact-match positions -/

theorem pass1_marks (n : Nat) (g a : List Char) :
    List.Forall₂ (fun (p : Char × Char) (f : Nat) => f = 2 ↔ p.1 = p.2)
      ((g.zip a).take n) (pass1 n g a).1 := by
  induction n generalizing g a with
  | zero => simp [pass1]
  | succ n ih =>
    cases g with
    | nil =>
      simp only [pass1, List.zip_nil_left, List.take_nil]
      exact List.Forall₂.nil
    | cons gc gs =>
      cases a with
      | nil =>
        simp only [pass1, List.zip_nil_right, List.take_nil]
        exact List.Forall₂.nil
      | cons ac as_ =>
        simp only [pass1, List.zip_cons_cons, List.take_succ_cons]
        split
        · rename_i h
          exact List.Forall₂.cons (by simp [h]) (ih gs as_)
        · rename_i h
          exact List.Forall₂.cons (by simp [h]) (ih gs as_)

theorem pass2_marks (g : List Char) (fb : List Nat) (ans : List (Option Char)) :
    List.Forall₂ (fun (f o : Nat) => o = 2 ↔ f = 2)
      (fb.take g.length) (pass2 g fb ans).1 := by
  induction g generalizing fb ans with
  | nil =>
    simp only [pass2, List.length_nil, List.take_zero]
    exact List.Forall₂.nil
  | cons gc gs ih =>
    cases fb with
    | nil =>
      simp only [pass2, List.take_nil]
      exact List.Forall₂.nil
    | cons f fs =>
      simp only [pass2, List.length_cons, List.take_succ_cons]
      split
      · rename_i h
        obtain ⟨hf, hmem⟩ := h
        subst hf
        exact List.Forall₂.cons (by simp) (ih fs (removeFirst ans gc))
      · exact List.Forall₂.cons Iff.rfl (ih fs ans)

/-- Position-wise characterisation of the Correct mark for 5-letter words:
the feedback digit at a position is 2 exactly when guess and answer agree
there (Correct positions are decided in pass 1, before any Present mark). -/
theorem get_feedback_marks (g a : Word) (hg : g.length = 5) (ha : a.length = 5) :
    List.Forall₂ (fun (p : Char × Char) (f : Nat) => f = 2 ↔ p.1 = p.2)
      (g.zip a) (get_feedback g a) := by
  have hgf : get_feedback g a = (pass2 g (pass1 5 g a).1 (pass1 5 g a).2).1 := rfl
  have hz : (g.zip a).length = 5 := by simp [hg, ha]
  have hfb1 : (pass1 5 g a).1.length = 5 := by simp [pass1_length, hg, ha]
  have h1 := pass1_marks 5 g a
  have h2 := pass2_marks g (pass1 5 g a).1 (pass1 5 g a).2
  rw [List.take_of_length_le (le_of_eq hz)] at h1
  rw [hg, List.take_of_length_le (le_of_eq hfb1)] at h2
  rw [← hgf] at h2
  rw [List.forall₂_iff_get] at h1 h2 ⊢
  obtain ⟨hl1, hp1⟩ := h1
  obtain ⟨hl2, hp2⟩ := h2
  refine ⟨hl1.trans hl2, ?_⟩
  intro i hi1 hi2
  have hifb : i < (pass1 5 g a).1.length := hl1 ▸ hi1
  exact (hp2 i hifb hi2).trans (hp1 i hi1 hifb)

/-- A word compared against itself yields the all-Correct pattern. -/
theorem get_feedback_self (g : Word) (hg : g.length = 5) :
    get_feedback g g = [2, 2, 2, 2, 2] := by
  have hm := get_feedback_marks g g hg hg
  have hlen : (get_feedback g g).length = 5 := get_feedback_length g g (le_of_eq hg.symm) (le_of_eq hg.symm)
  rw [List.forall₂_iff_get] at hm
  obtain ⟨hl, hp⟩ := hm
  have hall : ∀ f ∈ get_feedback g g, f = 2 := by
    intro f hf
    rw [List.mem_iff_getElem] at hf
    obtain ⟨i, hi, rfl⟩ := hf
    have hzi : i < (g.zip g).length := hl ▸ hi
    have := hp i hzi hi
    rw [List.get_eq_getElem, List.get_eq_getElem, List.getElem_zip] at this
    exact this.mpr rfl
  have h5 : get_feedback g g = List.replicate 5 2 :=
    List.eq_replicate_iff.mpr ⟨hlen, hall⟩
  rw [h5]
  rfl

/-- All-Correct feedback forces the two words to be equal. -/
theorem get_feedback_all2_eq (g a : Word) (hg : g.length = 5) (ha : a.length = 5)
    (h : get_feedback g a = [2, 2, 2, 2, 2]) : g = a := by
  have hm := get_feedback_marks g a hg ha
  rw [List.forall₂_iff_get] at hm
  obtain ⟨hl, hp⟩ := hm
  have hrep : get_feedback g a = List.replicate 5 2 := by rw [h]; rfl
  apply List.ext_get (hg.trans ha.symm)
  intro i h1 h2
  have hzi : i < (g.zip a).length := by
    simp only [List.length_zip]
    omega
  have hfi : i < (get_feedback g a).length := hl ▸ hzi
  have h2i : (get_feedback g a).get ⟨i, hfi⟩ = 2 := by
    rw [List.get_eq_getElem]
    simp only [hrep, List.getElem_replicate]
  have := (hp i hzi hfi).mp h2i
  rw [List.get_eq_getElem, List.getElem_zip] at this
  simpa using this

/-! ### Codec roundtrip helpers (claim C5) -/

theorem exists_five {α : Type} (p : List α) (h : p.length = 5) :
    ∃ a b c d e, p = [a, b, c, d, e] := by
  cases p with
  | nil => simp at h
  | cons a t =>
    cases t with
    | nil => simp at h
    | cons b t =>
      cases t with
      | nil => simp at h
      | cons c t =>
        cases t with
        | nil => simp at h
        | cons d t =>
          cases t with
          | nil => simp at h
          | cons e t =>
            cases t with
            | nil => exact ⟨a, b, c, d, e, rfl⟩
            | cons f t => simp at h

theorem codec_digit_roundtrip :
    ∀ a < 3, ∀ b < 3, ∀ c < 3, ∀ d < 3, ∀ e < 3,
      int_to_feedback (feedback_to_int [a, b, c, d, e]) = [a, b, c, d, e] := by
  decide

theorem codec_pattern_roundtrip (p : List Nat) (hl : p.length = 5) (hd : ∀ d ∈ p, d < 3) :
    int_to_feedback (feedback_to_int p) = p := by
  obtain ⟨a, b, c, d, e, rfl⟩ := exists_five p hl
  have ha : a < 3 := hd a (by simp)
  have hb : b < 3 := hd b (by simp)
  have hc : c < 3 := hd c (by simp)
  have hdd : d < 3 := hd d (by simp)
  have he : e < 3 := hd e (by simp)
  exact codec_digit_roundtrip a ha b hb c hc d hdd e he

/-! ### Claim theorems for C1, C3, C5, C7, C9 -/

/-- C1: for every pair of 5-letter lowercase words, the feedback marks, for
each letter, at most as many positions Correct-or-Present as that letter
occurs in the answer, and a position carries the Correct mark exactly when
guess and answer agree there (Correct positions consume their answer letter
in pass 1, before any Present mark is assigned); repeated letters are never
over-counted. -/
theorem feedback_respects_answer_multiset (g a : Word)
    (hg : g.length = 5) (ha : a.length = 5)
    (hga : ∀ ch ∈ g, 'a' ≤ ch ∧ ch ≤ 'z') (haa : ∀ ch ∈ a, 'a' ≤ ch ∧ ch ≤ 'z') :
    (∀ ch : Char,
        (g.zip (get_feedback g a)).countP (fun p => decide (p.1 = ch ∧ p.2 ≠ 0))
          ≤ a.count ch)
      ∧ List.Forall₂ (fun (p : Char × Char) (f : Nat) => f = 2 ↔ p.1 = p.2)
          (g.zip a) (get_feedback g a) :=
  ⟨fun ch => feedback_count g a ch, get_feedback_marks g a hg ha⟩

/-- Witness for C1 at the spec's own repeated-letter example
`evaluate("aabbb","ababa")`. -/
theorem feedback_respects_answer_multiset_witness :
    (∀ ch : Char,
        (['a', 'a', 'b', 'b', 'b'].zip
            (get_feedback ['a', 'a', 'b', 'b', 'b'] ['a', 'b', 'a', 'b', 'a'])).countP
            (fun p => decide (p.1 = ch ∧ p.2 ≠ 0))
          ≤ ['a', 'b', 'a', 'b', 'a'].count ch)
      ∧ List.Forall₂ (fun (p : Char × Char) (f : Nat) => f = 2 ↔ p.1 = p.2)
          (['a', 'a', 'b', 'b', 'b'].zip ['a', 'b', 'a', 'b', 'a'])
          (get_feedback ['a', 'a', 'b', 'b', 'b'] ['a', 'b', 'a', 'b', 'a']) :=
  feedback_respects_answer_multiset ['a', 'a', 'b', 'b', 'b'] ['a', 'b', 'a', 'b', 'a']
    (by decide) (by decide) (by decide) (by decide)

/-- C3: `filter_words` returns exactly the sub-collection of words whose
feedback against the guess equals the observed feedback; the result is a
sublist of the input (the list comprehension builds a new list and leaves
the input unchanged). -/
theorem filter_words_spec (words : List Word) (guess : Word) (feedback : List Nat) :
    (∀ w : Word, w ∈ filter_words words guess feedback
        ↔ (w ∈ words ∧ get_feedback guess w = feedback))
      ∧ (filter_words words guess feedback).Sublist words := by
  constructor
  · intro w
    simp [filter_words, List.mem_filter]
  · exact List.filter_sublist words

set_option maxRecDepth 4000 in
/-- C5: the base-3 feedback encoding and decoding are mutual inverses, for
every code in `[0, 3^5)` and every valid 5-digit pattern. -/
theorem codec_roundtrip :
    (∀ c : Nat, c < 3 ^ 5 → feedback_to_int (int_to_feedback c) = c)
      ∧ (∀ p : List Nat, p.length = 5 → (∀ d ∈ p, d < 3) →
          int_to_feedback (feedback_to_int p) = p) :=
  ⟨by decide, fun p hl hd => codec_pattern_roundtrip p hl hd⟩

/-- Witness for C5 at code 200 and pattern `[2,1,0,1,2]`. -/
theorem codec_roundtrip_witness :
    feedback_to_int (int_to_feedback 200) = 200
      ∧ int_to_feedback (feedback_to_int [2, 1, 0, 1, 2]) = [2, 1, 0, 1, 2] :=
  ⟨codec_roundtrip.1 200 (by decide), codec_roundtrip.2 [2, 1, 0, 1, 2] (by decide) (by decide)⟩

/-- C7: a word against itself gives the all-Correct pattern; conversely an
all-Correct pattern forces the words to be equal, so for a duplicate-free
word list the simulator's solved test (guess index equals answer index)
coincides with the feedback being all-Correct. -/
theorem self_feedback_all_correct :
    (∀ g : Word, g.length = 5 → get_feedback g g = [2, 2, 2, 2, 2])
      ∧ (∀ g a : Word, g.length = 5 → a.length = 5 →
          get_feedback g a = [2, 2, 2, 2, 2] → g = a)
      ∧ (∀ ws : List Word, ws.Nodup → (∀ w ∈ ws, w.length = 5) →
          ∀ i j : Nat, ∀ hi : i < ws.length, ∀ hj : j < ws.length,
            (get_feedback (ws.get ⟨i, hi⟩) (ws.get ⟨j, hj⟩) = [2, 2, 2, 2, 2] ↔ i = j)) := by
  refine ⟨fun g hg => get_feedback_self g hg,
          fun g a hg ha h => get_feedback_all2_eq g a hg ha h, ?_⟩
  intro ws hnd hlen i j hi hj
  constructor
  · intro h
    have hw := get_feedback_all2_eq _ _ (hlen _ (ws.get_mem _ _)) (hlen _ (ws.get_mem _ _)) h
    have := (List.Nodup.get_inj_iff hnd).mp hw
    exact Fin.mk_eq_mk.mp this
  · intro h
    subst h
    exact get_feedback_self _ (hlen _ (ws.get_mem _ _))

/-- Witness for C7 on the word `crane` and a two-word duplicate-free list. -/
theorem self_feedback_all_correct_witness :
    get_feedback ['c', 'r', 'a', 'n', 'e'] ['c', 'r', 'a', 'n', 'e'] = [2, 2, 2, 2, 2]
      ∧ (get_feedback ['c', 'r', 'a', 'n', 'e'] ['s', 'l', 'a', 't', 'e'] = [2, 2, 2, 2, 2]
          → ['c', 'r', 'a', 'n', 'e'] = ['s', 'l', 'a', 't', 'e'])
      ∧ (get_feedback
            (([['c', 'r', 'a', 'n', 'e'], ['s', 'l', 'a', 't', 'e']] : List Word).get
              ⟨0, by decide⟩)
            (([['c', 'r', 'a', 'n', 'e'], ['s', 'l', 'a', 't', 'e']] : List Word).get
              ⟨1, by decide⟩) = [2, 2, 2, 2, 2] ↔ (0 : Nat) = 1) :=
  ⟨self_feedback_all_correct.1 ['c', 'r', 'a', 'n', 'e'] (by decide),
   self_feedback_all_correct.2.1 ['c', 'r', 'a', 'n', 'e'] ['s', 'l', 'a', 't', 'e']
     (by decide) (by decide),
   self_feedback_all_correct.2.2 [['c', 'r', 'a', 'n', 'e'], ['s', 'l', 'a', 't', 'e']]
     (by decide) (by decide) 0 1 (by decide) (by decide)⟩

/-- C9 as stated is false: the code performs no validation at all.  Here a
guess/answer pair of unequal lengths (5 and 6) evaluates without failure,
and a pair containing uppercase (out-of-alphabet) characters also evaluates
without failure, contradicting the claimed InvalidInput behaviour. -/
theorem get_feedback_no_validation_counterexample :
    (get_feedback_checked ['a', 'b', 'c', 'd', 'e'] ['a', 'b', 'c', 'd', 'e', 'f']).isSome = true
      ∧ (get_feedback_checked ['A', 'B', 'C', 'D', 'E'] ['A', 'B', 'C', 'D', 'E']).isSome = true := by
  constructor <;> rfl

/-- C9 amended: `get_feedback` fails (Python `IndexError`, `none` here)
exactly when one of the two words is shorter than 5 characters; for any two
words of length at least 5 — even of unequal lengths or with characters
outside the lowercase alphabet — it returns a feedback pattern. -/
theorem get_feedback_checked_isSome_iff (g a : Word) :
    (get_feedback_checked g a).isSome = true ↔ (5 ≤ g.length ∧ 5 ≤ a.length) := by
  by_cases h : 5 ≤ g.length ∧ 5 ≤ a.length <;> simp [get_feedback_checked, h]

/-! ### Entropy of a bucket partition (claims C2, C4, C10)

Python iterates over the bucket dictionary built from a list of feedback
values (`buckets[key] += 1` per occurrence) and accumulates
`p * log2(1/p)` with `p = count/total` for each distinct key; the distinct
keys in first-occurrence order are `l.dedup`, each with multiplicity
`l.count v`.  Floats are modelled as real numbers. -/

noncomputable def entropyOfList {α : Type} [DecidableEq α] (l : List α) : ℝ :=
  (l.dedup.map (fun v =>
    ((l.count v : ℝ) / (l.length : ℝ))
      * Real.logb 2 (1 / ((l.count v : ℝ) / (l.length : ℝ))))).sum

theorem entropyOfList_nonneg {α : Type} [DecidableEq α] (l : List α) :
    0 ≤ entropyOfList l := by
  apply List.sum_nonneg
  intro x hx
  obtain ⟨v, hv, rfl⟩ := List.mem_map.mp hx
  have hc : 0 < l.count v := List.count_pos_iff.mpr (List.mem_dedup.mp hv)
  have hcl : l.count v ≤ l.length := List.count_le_length v l
  have hcR : (0 : ℝ) < (l.count v : ℝ) := by exact_mod_cast hc
  have hnR : (0 : ℝ) < (l.length : ℝ) := by exact_mod_cast lt_of_lt_of_le hc hcl
  have hp0 : 0 < (l.count v : ℝ) / (l.length : ℝ) := div_pos hcR hnR
  have hp1 : (l.count v : ℝ) / (l.length : ℝ) ≤ 1 :=
    div_le_one_of_le₀ (by exact_mod_cast hcl) hnR.le
  apply mul_nonneg hp0.le
  apply Real.logb_nonneg one_lt_two
  rw [le_div_iff₀ hp0, one_mul]
  exact hp1

theorem entropyOfList_le_logb {α : Type} [DecidableEq α] (l : List α) :
    entropyOfList l ≤ Real.logb 2 (l.length : ℝ) := by
  rcases eq_or_ne l [] with rfl | hne
  · simp [entropyOfList]
  · have hn : 0 < l.length := List.length_pos.mpr hne
    have hnR : (0 : ℝ) < (l.length : ℝ) := by exact_mod_cast hn
    have hsum : (l.dedup.map (fun v => (l.count v : ℝ) / (l.length : ℝ))).sum = 1 := by
      have h1 : (l.dedup.map (fun v => (l.count v : ℝ) / (l.length : ℝ))).sum
          = (l.dedup.map (fun v => (l.count v : ℝ) * ((l.length : ℝ))⁻¹)).sum := by
        simp only [div_eq_mul_inv]
      rw [h1, List.sum_map_mul_right]
      have h2 : (l.dedup.map (fun v => (l.count v : ℝ))).sum
          = (((l.dedup.map l.count).sum : ℕ) : ℝ) := by
        rw [Nat.cast_list_sum, List.map_map]
        rfl
      rw [h2, List.sum_map_count_dedup_eq_length]
      exact mul_inv_cancel₀ (ne_of_gt hnR)
    have step1 : entropyOfList l
        ≤ (l.dedup.map (fun v =>
            ((l.count v : ℝ) / (l.length : ℝ)) * Real.logb 2 (l.length : ℝ))).sum := by
      simp only [entropyOfList]
      apply List.sum_le_sum
      intro v hv
      have hc : 0 < l.count v := List.count_pos_iff.mpr (List.mem_dedup.mp hv)
      have hcR : (0 : ℝ) < (l.count v : ℝ) := by exact_mod_cast hc
      have hp0 : 0 ≤ (l.count v : ℝ) / (l.length : ℝ) := (div_pos hcR hnR).le
      apply mul_le_mul_of_nonneg_left _ hp0
      rw [one_div_div]
      apply Real.logb_le_logb_of_le one_lt_two (div_pos hnR hcR)
      rw [div_le_iff₀ hcR]
      exact le_mul_of_one_le_right hnR.le (Nat.one_le_cast.mpr hc)
    have step2 : (l.dedup.map (fun v =>
        ((l.count v : ℝ) / (l.length : ℝ)) * Real.logb 2 (l.length : ℝ))).sum
        = Real.logb 2 (l.length : ℝ) := by
      rw [List.sum_map_mul_right, hsum, one_mul]
    exact step1.trans (le_of_eq step2)

theorem entropyOfList_of_subsingleton {α : Type} [DecidableEq α] (l : List α)
    (h : l.length ≤ 1) : entropyOfList l = 0 := by
  cases l with
  | nil => simp [entropyOfList]
  | cons a t =>
    cases t with
    | nil =>
      simp [entropyOfList, Real.logb_one]
    | cons b t => simp at h

/-- Embeds the pure computation inside `entropy_for_guess` (solver.py lines
46-54): bucket the feedback of `guess` against every possible answer and sum
`p * log2(1/p)` over the non-empty buckets.  The module-level cache wrapped
around this computation (lines 41-44 and 56-57) is modelled separately by
`entropy_for_guess_cached`. -/
noncomputable def entropy_for_guess (guess : Word) (possible_answers : List Word) : ℝ :=
  entropyOfList (possible_answers.map (fun answer => get_feedback guess answer))

/-- Shannon entropy of the bucket partition of `l`, written with the
`(c/n) * log2(n/c)` summands used by the spec wording. -/
noncomputable def partitionEntropyOfList {α : Type} [DecidableEq α] (l : List α) (n : Nat) : ℝ :=
  (l.dedup.map (fun v =>
    ((l.count v : ℝ) / (n : ℝ)) * Real.logb 2 ((n : ℝ) / (l.count v : ℝ)))).sum

/-- Modelled from the spec wording of §4.4 (EntropyScorer): partition the
candidates by feedback pattern and accumulate `(c/n) * log2(n/c)` over the
non-empty buckets of size `c`, where `n` is the number of candidates.  This
definition follows the spec text and is compared with the source-derived
`entropy_for_guess` in claim C4. -/
noncomputable def partition_entropy (guess : Word) (candidates : List Word) : ℝ :=
  partitionEntropyOfList (candidates.map (fun a => get_feedback guess a)) candidates.length

theorem entropyOfList_eq_partition {α : Type} [DecidableEq α] (l : List α) :
    entropyOfList l = partitionEntropyOfList l l.length := by
  simp only [entropyOfList, partitionEntropyOfList]
  congr 1
  apply List.map_congr_left
  intro v hv
  rw [one_div_div]

/-- C4: the entropy score of a guess equals the Shannon entropy (in bits) of
the partition of the candidates by feedback pattern, lies between 0 and
log2 of the candidate count, and is 0 for at most one candidate. -/
theorem entropy_score_bounds (guess : Word) (candidates : List Word) (h : candidates ≠ []) :
    entropy_for_guess guess candidates = partition_entropy guess candidates
      ∧ 0 ≤ entropy_for_guess guess candidates
      ∧ entropy_for_guess guess candidates ≤ Real.logb 2 (candidates.length : ℝ)
      ∧ (candidates.length ≤ 1 → entropy_for_guess guess candidates = 0) := by
  refine ⟨?_, entropyOfList_nonneg _, ?_, ?_⟩
  · rw [entropy_for_guess, partition_entropy, entropyOfList_eq_partition, List.length_map]
  · have := entropyOfList_le_logb (candidates.map (fun a => get_feedback guess a))
    rwa [List.length_map] at this
  · intro hle
    apply entropyOfList_of_subsingleton
    rwa [List.length_map]

/-- Witness for C4 on a two-candidate set. -/
theorem entropy_score_bounds_witness :
    entropy_for_guess ['a', 'b', 'c', 'd', 'e'] [['a', 'b', 'c', 'd', 'e'], ['f', 'g', 'h', 'i', 'j']]
        = partition_entropy ['a', 'b', 'c', 'd', 'e'] [['a', 'b', 'c', 'd', 'e'], ['f', 'g', 'h', 'i', 'j']]
      ∧ 0 ≤ entropy_for_guess ['a', 'b', 'c', 'd', 'e'] [['a', 'b', 'c', 'd', 'e'], ['f', 'g', 'h', 'i', 'j']]
      ∧ entropy_for_guess ['a', 'b', 'c', 'd', 'e'] [['a', 'b', 'c', 'd', 'e'], ['f', 'g', 'h', 'i', 'j']]
          ≤ Real.logb 2 (([['a', 'b', 'c', 'd', 'e'], ['f', 'g', 'h', 'i', 'j']] : List Word).length : ℝ)
      ∧ (([['a', 'b', 'c', 'd', 'e'], ['f', 'g', 'h', 'i', 'j']] : List Word).length ≤ 1
          → entropy_for_guess ['a', 'b', 'c', 'd', 'e'] [['a', 'b', 'c', 'd', 'e'], ['f', 'g', 'h', 'i', 'j']] = 0) :=
  entropy_score_bounds ['a', 'b', 'c', 'd', 'e'] [['a', 'b', 'c', 'd', 'e'], ['f', 'g', 'h', 'i', 'j']]
    (by simp)

/-! ### The module-level entropy cache (claim C10) -/

/-- Cache keys are `(guess, tuple(possible_answers))` pairs (solver.py line 42). -/
abbrev CacheKey := Word × List Word

/-- Association-list model of the module-level dict `entropy_cache`
(solver.py line 39). -/
abbrev EntropyCache := List (CacheKey × ℝ)

/-- Dictionary lookup by key equality, as in `if key in entropy_cache`. -/
def cacheFind : EntropyCache → CacheKey → Option ℝ
  | [], _ => none
  | (k, v) :: rest, key => if k = key then some v else cacheFind rest key

/-- Embeds `entropy_for_guess` together with its cache (solver.py lines
41-57): a hit returns the stored value and leaves the cache unchanged; a
miss runs the pure bucket computation and stores the result.  The returned
pair is (value, cache after the call). -/
noncomputable def entropy_for_guess_cached (cache : EntropyCache) (guess : Word)
    (possible_answers : List Word) : ℝ × EntropyCache :=
  match cacheFind cache (guess, possible_answers) with
  | some v => (v, cache)
  | none =>
      let e := entropy_for_guess guess possible_answers
      (e, ((guess, possible_answers), e) :: cache)

/-- Runs a session: a sequence of entropy queries threaded through the cache. -/
noncomputable def runSession : List CacheKey → EntropyCache → List ℝ
  | [], _ => []
  | q :: qs, cache =>
      let r := entropy_for_guess_cached cache q.1 q.2
      r.1 :: runSession qs r.2

/-- A cache is coherent when every stored value is the pure entropy of its key. -/
def CacheCoherent (cache : EntropyCache) : Prop :=
  ∀ k v, cacheFind cache k = some v → v = entropy_for_guess k.1 k.2

theorem cacheCoherent_nil : CacheCoherent [] := by
  intro k v h
  simp [cacheFind] at h

theorem runSession_coherent (qs : List CacheKey) (cache : EntropyCache)
    (hc : CacheCoherent cache) :
    runSession qs cache = qs.map (fun q => entropy_for_guess q.1 q.2) := by
  induction qs generalizing cache with
  | nil => simp [runSession]
  | cons q qs ih =>
    simp only [runSession, List.map_cons]
    cases hfind : cacheFind cache (q.1, q.2) with
    | some v =>
      have hv := hc (q.1, q.2) v hfind
      simp only [entropy_for_guess_cached, hfind]
      rw [hv, ih cache hc]
    | none =>
      simp only [entropy_for_guess_cached, hfind]
      have hc' : CacheCoherent (((q.1, q.2), entropy_for_guess q.1 q.2) :: cache) := by
        intro k v h
        simp only [cacheFind] at h
        split at h
        · rename_i heq
          cases h
          rw [← heq]
        · exact hc k v h
      rw [ih _ hc']

/-- C10: the module-level entropy cache is observationally transparent — any
session of entropy queries started from the empty cache returns exactly the
values of the pure, uncached computation, so memoization never changes a
returned result. -/
theorem entropy_cache_transparent (calls : List CacheKey) :
    runSession calls [] = calls.map (fun q => entropy_for_guess q.1 q.2) :=
  runSession_coherent calls [] cacheCoherent_nil

/-! ### Guess selection (claim C2) -/

/-- Loop body of `best_entropy_guess` (solver.py lines 64-68): a guess
replaces the incumbent when its entropy is strictly greater, or when it ties
exactly and the guess is itself a possible answer. -/
noncomputable def beg_step (possible_answers : List Word) (best : Option Word × ℝ)
    (guess : Word) : Option Word × ℝ :=
  let e := entropy_for_guess guess possible_answers
  if best.2 < e ∨ (e = best.2 ∧ guess ∈ possible_answers) then (some guess, e) else best

/-- Embeds `best_entropy_guess` (solver.py lines 60-70): fold the loop body
over the allowed-word list starting from `best_word = None`,
`best_entropy = -1`. -/
noncomputable def best_entropy_guess (allowed_words possible_answers : List Word) :
    Option Word × ℝ :=
  allowed_words.foldl (beg_step possible_answers) (none, -1)

/-- Maximum entropy over the allowed words, with the loop's initial `-1`. -/
noncomputable def max_entropy (allowed_words possible_answers : List Word) : ℝ :=
  (allowed_words.map (fun w => entropy_for_guess w possible_answers)).foldl max (-1)

/-- The selection the loop actually implements: among the allowed words of
maximum entropy, the last one that is itself a possible answer; if none of
them is a possible answer, the first maximum-entropy word. -/
noncomputable def tie_break_select (allowed_words possible_answers : List Word) :
    Option Word :=
  let maxWords := allowed_words.filter (fun w =>
    decide (entropy_for_guess w possible_answers = max_entropy allowed_words possible_answers))
  let memberMax := maxWords.filter (fun w => decide (w ∈ possible_answers))
  Option.or memberMax.getLast? maxWords.head?

theorem entropy_for_guess_nonneg (g : Word) (ans : List Word) :
    0 ≤ entropy_for_guess g ans :=
  entropyOfList_nonneg _

theorem max_entropy_append (l : List Word) (x : Word) (ans : List Word) :
    max_entropy (l ++ [x]) ans = max (max_entropy l ans) (entropy_for_guess x ans) := by
  simp [max_entropy, List.map_append, List.foldl_append]

theorem le_max_entropy (l : List Word) (ans : List Word) :
    ∀ w ∈ l, entropy_for_guess w ans ≤ max_entropy l ans := by
  induction l using List.reverseRecOn with
  | nil => simp
  | append_singleton l x ih =>
    intro w hw
    rw [max_entropy_append]
    rcases List.mem_append.mp hw with h | h
    · exact le_max_of_le_left (ih w h)
    · rw [List.mem_singleton.mp h]
      exact le_max_right _ _

theorem max_entropy_attained (l : List Word) (ans : List Word) (h : l ≠ []) :
    ∃ w ∈ l, entropy_for_guess w ans = max_entropy l ans := by
  induction l using List.reverseRecOn with
  | nil => exact absurd rfl h
  | append_singleton l x ih =>
    rw [max_entropy_append]
    rcases eq_or_ne l [] with rfl | hne
    · refine ⟨x, by simp, ?_⟩
      have hinit : max_entropy [] ans ≤ entropy_for_guess x ans := by
        have := entropy_for_guess_nonneg x ans
        simp only [max_entropy, List.map_nil, List.foldl_nil]
        linarith
      rw [max_eq_right hinit]
    · obtain ⟨w, hw, hwe⟩ := ih hne
      rcases le_total (entropy_for_guess x ans) (max_entropy l ans) with hle | hle
      · exact ⟨w, List.mem_append_left _ hw, by rw [max_eq_left hle, hwe]⟩
      · exact ⟨x, List.mem_append_right _ (by simp), (max_eq_right hle).symm⟩

/-- Characterisation of the selection loop of `best_entropy_guess`: the
returned entropy is the maximum, and the returned word is the last
maximum-entropy word that is a possible answer, or the first
maximum-entropy word when no maximum-entropy word is a possible answer. -/
theorem best_entropy_guess_eq (allowed_words possible_answers : List Word) :
    best_entropy_guess allowed_words possible_answers
      = (tie_break_select allowed_words possible_answers,
         max_entropy allowed_words possible_answers) := by
  induction allowed_words using List.reverseRecOn with
  | nil => rfl
  | append_singleton l x ih =>
    have hfold : best_entropy_guess (l ++ [x]) possible_answers
        = beg_step possible_answers (best_entropy_guess l possible_answers) x := by
      simp [best_entropy_guess, List.foldl_append]
    rw [hfold, ih]
    have hM' : max_entropy (l ++ [x]) possible_answers
        = max (max_entropy l possible_answers) (entropy_for_guess x possible_answers) :=
      max_entropy_append l x possible_answers
    rcases lt_trichotomy (max_entropy l possible_answers) (entropy_for_guess x possible_answers)
      with hlt | heq | hgt
    · -- the new word has strictly greater entropy: it wins outright
      have hMe : max (max_entropy l possible_answers) (entropy_for_guess x possible_answers)
          = entropy_for_guess x possible_answers := max_eq_right hlt.le
      have hL : beg_step possible_answers
          (tie_break_select l possible_answers, max_entropy l possible_answers) x
          = (some x, entropy_for_guess x possible_answers) := by
        simp only [beg_step]
        rw [if_pos (Or.inl hlt)]
      rw [hL]
      have hfilter_l : l.filter (fun w =>
          decide (entropy_for_guess w possible_answers
            = max_entropy (l ++ [x]) possible_answers)) = [] := by
        rw [List.filter_eq_nil_iff]
        intro w hw
        simp only [decide_eq_true_eq]
        intro hcontra
        have h1 := le_max_entropy l possible_answers w hw
        rw [hM', hMe] at hcontra
        rw [hcontra] at h1
        exact absurd hlt (not_lt.mpr h1)
      have hfx : decide (entropy_for_guess x possible_answers
          = max_entropy (l ++ [x]) possible_answers) = true := by
        simp only [decide_eq_true_eq]
        rw [hM', hMe]
      refine Prod.ext ?_ ?_
      · simp only [tie_break_select, List.filter_append, hfilter_l, List.filter_cons, hfx,
          if_true, List.filter_nil, List.nil_append]
        by_cases hx : x ∈ possible_answers
        · simp [hx]
        · simp [hx]
      · simp only [hM', hMe]
    · -- exact tie
      have hMe : max (max_entropy l possible_answers) (entropy_for_guess x possible_answers)
          = max_entropy l possible_answers := max_eq_left heq.ge
      have hlne : l ≠ [] := by
        intro hnil
        subst hnil
        have h0 := entropy_for_guess_nonneg x possible_answers
        have : max_entropy ([] : List Word) possible_answers = -1 := rfl
        rw [this] at heq
        linarith
      have hfilter_l : l.filter (fun w =>
          decide (entropy_for_guess w possible_answers
            = max_entropy (l ++ [x]) possible_answers))
          = l.filter (fun w =>
          decide (entropy_for_guess w possible_answers
            = max_entropy l possible_answers)) := by
        rw [hM', hMe]
      have hfx : decide (entropy_for_guess x possible_answers
          = max_entropy (l ++ [x]) possible_answers) = true := by
        simp only [decide_eq_true_eq]
        rw [hM', hMe]
        exact heq.symm
      have hmaxwords : (l ++ [x]).filter (fun w =>
          decide (entropy_for_guess w possible_answers
            = max_entropy (l ++ [x]) possible_answers))
          = l.filter (fun w =>
              decide (entropy_for_guess w possible_answers
                = max_entropy l possible_answers)) ++ [x] := by
        rw [List.filter_append, hfilter_l, List.filter_cons, hfx]
        simp
      by_cases hx : x ∈ possible_answers
      · -- the tying word is a candidate: it replaces the incumbent
        have hL : beg_step possible_answers
            (tie_break_select l possible_answers, max_entropy l possible_answers) x
            = (some x, entropy_for_guess x possible_answers) := by
          simp only [beg_step]
          rw [if_pos (Or.inr (And.intro heq.symm hx))]
        rw [hL]
        refine Prod.ext ?_ ?_
        · simp only [tie_break_select, hmaxwords, List.filter_append]
          have : ([x].filter (fun w => decide (w ∈ possible_answers))) = [x] := by
            simp [hx]
          rw [this, List.getLast?_concat]
          simp
        · simp only [hM', hMe]
          exact heq.symm
      · -- the tying word is not a candidate: the incumbent stays
        have hL : beg_step possible_answers
            (tie_break_select l possible_answers, max_entropy l possible_answers) x
            = (tie_break_select l possible_answers, max_entropy l possible_answers) := by
          simp only [beg_step]
          rw [if_neg]
          intro hcond
          rcases hcond with h1 | h2
          · rw [heq] at h1
            exact lt_irrefl _ h1
          · exact hx h2.2
        rw [hL]
        refine Prod.ext ?_ ?_
        · simp only [tie_break_select, hmaxwords, List.filter_append]
          have hxf : ([x].filter (fun w => decide (w ∈ possible_answers))) = [] := by
            simp [hx]
          rw [hxf, List.append_nil]
          -- the head? side needs the left part non-empty
          obtain ⟨w, hw, hwe⟩ := max_entropy_attained l possible_answers hlne
          have hwmem : w ∈ l.filter (fun w =>
              decide (entropy_for_guess w possible_answers
                = max_entropy l possible_answers)) := by
            rw [List.mem_filter]
            exact ⟨hw, by simp [hwe]⟩
          cases hmw : l.filter (fun w =>
              decide (entropy_for_guess w possible_answers
                = max_entropy l possible_answers)) with
          | nil => rw [hmw] at hwmem; simp at hwmem
          | cons y ys => simp [List.cons_append]
        · simp only [hM', hMe]
    · -- strictly smaller entropy: nothing changes
      have hMe : max (max_entropy l possible_answers) (entropy_for_guess x possible_answers)
          = max_entropy l possible_answers := max_eq_left hgt.le
      have hL : beg_step possible_answers
          (tie_break_select l possible_answers, max_entropy l possible_answers) x
          = (tie_break_select l possible_answers, max_entropy l possible_answers) := by
        simp only [beg_step]
        rw [if_neg]
        intro hcond
        rcases hcond with h1 | h2
        · exact absurd h1 (not_lt.mpr hgt.le)
        · rw [h2.1] at hgt
          exact absurd hgt (lt_irrefl _)
      rw [hL]
      have hfx : decide (entropy_for_guess x possible_answers
          = max_entropy (l ++ [x]) possible_answers) = false := by
        simp only [decide_eq_false_iff_not]
        rw [hM', hMe]
        exact fun hcon => absurd hgt (not_lt.mpr hcon.ge)
      have hmaxwords : (l ++ [x]).filter (fun w =>
          decide (entropy_for_guess w possible_answers
            = max_entropy (l ++ [x]) possible_answers))
          = l.filter (fun w =>
              decide (entropy_for_guess w possible_answers
                = max_entropy l possible_answers)) := by
        rw [List.filter_append, List.filter_cons, hfx]
        simp only [Bool.false_eq_true, if_false, List.filter_nil, List.append_nil]
        rw [hM', hMe]
      refine Prod.ext ?_ ?_
      · simp only [tie_break_select, hmaxwords]
      · simp only [hM', hMe]

/-- C2 amended: for a non-empty allowed list, the selection maximises
entropy (rules 1 and 2 as claimed), but on an exact entropy tie each tying
candidate-member replaces the incumbent, so the selected word is the LAST
maximum-entropy word in allowed order that is a member of the candidate
set — not the first — and the first maximum-entropy word only wins when no
maximum-entropy word is a member.  Selection remains deterministic. -/
theorem guess_selection_policy (allowed_words possible_answers : List Word)
    (h : allowed_words ≠ []) :
    (best_entropy_guess allowed_words possible_answers).1
        = tie_break_select allowed_words possible_answers
      ∧ (best_entropy_guess allowed_words possible_answers).2
        = max_entropy allowed_words possible_answers
      ∧ (∀ w ∈ allowed_words,
          entropy_for_guess w possible_answers
            ≤ (best_entropy_guess allowed_words possible_answers).2) := by
  have heq := best_entropy_guess_eq allowed_words possible_answers
  refine ⟨by rw [heq], by rw [heq], ?_⟩
  intro w hw
  rw [heq]
  exact le_max_entropy allowed_words possible_answers w hw

/-- Witness for C2 (amended) on a one-word allowed list. -/
theorem guess_selection_policy_witness :
    (best_entropy_guess [['a', 'a', 'a', 'a', 'a']] []).1 = tie_break_select [['a', 'a', 'a', 'a', 'a']] []
      ∧ (best_entropy_guess [['a', 'a', 'a', 'a', 'a']] []).2 = max_entropy [['a', 'a', 'a', 'a', 'a']] []
      ∧ (∀ w ∈ [['a', 'a', 'a', 'a', 'a']],
          entropy_for_guess w [] ≤ (best_entropy_guess [['a', 'a', 'a', 'a', 'a']] []).2) :=
  guess_selection_policy [['a', 'a', 'a', 'a', 'a']] [] (by simp)

/-- Entropy of a two-element list with two distinct values is exactly 1 bit. -/
theorem entropyOfList_pair {α : Type} [DecidableEq α] (x y : α) (hxy : x ≠ y) :
    entropyOfList [x, y] = 1 := by
  simp only [entropyOfList]
  rw [List.dedup_cons_of_not_mem (by simp [hxy]), List.dedup_cons_of_not_mem (by simp),
    List.dedup_nil]
  have hyx : y ≠ x := fun hs => hxy hs.symm
  have hxc : ([x, y] : List α).count x = 1 := by
    simp [List.count_cons, hxy, hyx]
  have hyc : ([x, y] : List α).count y = 1 := by
    simp [List.count_cons, hxy, hyx]
  rw [List.map_cons, List.map_cons, List.map_nil, hxc, hyc]
  have hlen : (([x, y] : List α).length : ℝ) = 2 := by simp
  rw [hlen]
  have hhalf : ((1 : ℕ) : ℝ) / 2 = 1 / 2 := by norm_num
  rw [hhalf]
  have hinv : (1 : ℝ) / (1 / 2) = 2 := by norm_num
  rw [hinv, Real.logb_self_eq_one one_lt_two]
  norm_num

/-- C2 as stated is false at a concrete input: with allowed list
`[abcde, fghij]` and the same two words as candidates, the two guesses tie
exactly (both 1 bit) and both are candidate-set members, yet the loop
returns the SECOND word of the allowed list, not the first as rule (3) of
the claimed tie-break policy requires. -/
theorem guess_selection_counterexample :
    entropy_for_guess ['a', 'b', 'c', 'd', 'e']
        [['a', 'b', 'c', 'd', 'e'], ['f', 'g', 'h', 'i', 'j']]
      = entropy_for_guess ['f', 'g', 'h', 'i', 'j']
        [['a', 'b', 'c', 'd', 'e'], ['f', 'g', 'h', 'i', 'j']]
    ∧ (['a', 'b', 'c', 'd', 'e'] : Word)
        ∈ [['a', 'b', 'c', 'd', 'e'], ['f', 'g', 'h', 'i', 'j']]
    ∧ (['f', 'g', 'h', 'i', 'j'] : Word)
        ∈ [['a', 'b', 'c', 'd', 'e'], ['f', 'g', 'h', 'i', 'j']]
    ∧ (['a', 'b', 'c', 'd', 'e'] : Word) ≠ ['f', 'g', 'h', 'i', 'j']
    ∧ (best_entropy_guess [['a', 'b', 'c', 'd', 'e'], ['f', 'g', 'h', 'i', 'j']]
        [['a', 'b', 'c', 'd', 'e'], ['f', 'g', 'h', 'i', 'j']]).1
        = some ['f', 'g', 'h', 'i', 'j'] := by
  have hmap1 : ([['a', 'b', 'c', 'd', 'e'], ['f', 'g', 'h', 'i', 'j']] : List Word).map
      (fun answer => get_feedback ['a', 'b', 'c', 'd', 'e'] answer)
      = [[2, 2, 2, 2, 2], [0, 0, 0, 0, 0]] := by decide
  have hmap2 : ([['a', 'b', 'c', 'd', 'e'], ['f', 'g', 'h', 'i', 'j']] : List Word).map
      (fun answer => get_feedback ['f', 'g', 'h', 'i', 'j'] answer)
      = [[0, 0, 0, 0, 0], [2, 2, 2, 2, 2]] := by decide
  have e1 : entropy_for_guess ['a', 'b', 'c', 'd', 'e']
      [['a', 'b', 'c', 'd', 'e'], ['f', 'g', 'h', 'i', 'j']] = 1 := by
    show entropyOfList (([['a', 'b', 'c', 'd', 'e'], ['f', 'g', 'h', 'i', 'j']] : List Word).map
      (fun answer => get_feedback ['a', 'b', 'c', 'd', 'e'] answer)) = 1
    rw [hmap1]
    exact entropyOfList_pair _ _ (by decide)
  have e2 : entropy_for_guess ['f', 'g', 'h', 'i', 'j']
      [['a', 'b', 'c', 'd', 'e'], ['f', 'g', 'h', 'i', 'j']] = 1 := by
    show entropyOfList (([['a', 'b', 'c', 'd', 'e'], ['f', 'g', 'h', 'i', 'j']] : List Word).map
      (fun answer => get_feedback ['f', 'g', 'h', 'i', 'j'] answer)) = 1
    rw [hmap2]
    exact entropyOfList_pair _ _ (by decide)
  refine ⟨e1.trans e2.symm, by simp, by simp, by decide, ?_⟩
  have s1 : beg_step [['a', 'b', 'c', 'd', 'e'], ['f', 'g', 'h', 'i', 'j']]
      (none, -1) ['a', 'b', 'c', 'd', 'e'] = (some ['a', 'b', 'c', 'd', 'e'], 1) := by
    simp only [beg_step, e1]
    rw [if_pos (Or.inl (by norm_num))]
  have s2 : beg_step [['a', 'b', 'c', 'd', 'e'], ['f', 'g', 'h', 'i', 'j']]
      (some ['a', 'b', 'c', 'd', 'e'], 1) ['f', 'g', 'h', 'i', 'j']
      = (some ['f', 'g', 'h', 'i', 'j'], 1) := by
    simp only [beg_step, e2]
    rw [if_pos (Or.inr (And.intro trivial (by simp)))]
  show (List.foldl (beg_step [['a', 'b', 'c', 'd', 'e'], ['f', 'g', 'h', 'i', 'j']])
      (none, -1) [['a', 'b', 'c', 'd', 'e'], ['f', 'g', 'h', 'i', 'j']]).1
      = some ['f', 'g', 'h', 'i', 'j']
  rw [List.foldl_cons, s1, List.foldl_cons, s2, List.foldl_nil]

/-! ### The interactive submit step (claim C6) -/

/-- Outcomes of `WordleGUI.submit` (solver.py lines 146-168) as surfaced to
the caller: the invalid-guess error dialog, the solved dialog, the
`No words left` error dialog shown when filtering empties the candidate
list (the code then stops auto-play and does not continue the game), or
continuation with the filtered list. -/
inductive SubmitResult where
  | invalidGuess : SubmitResult
  | solved : SubmitResult
  | noWordsLeft : SubmitResult
  | next : List Word → SubmitResult
  deriving DecidableEq

/-- Embeds the control flow of `WordleGUI.submit` (solver.py lines 146-168):
validate the guess, report success on an all-Correct feedback, otherwise
filter and report an error if no word is left. -/
def submit (allowed_words words : List Word) (guess : Word) (feedback : List Nat) :
    SubmitResult :=
  if guess.length ≠ 5 ∨ guess ∉ allowed_words then SubmitResult.invalidGuess
  else if feedback = [2, 2, 2, 2, 2] then SubmitResult.solved
  else
    if filter_words words guess feedback = [] then SubmitResult.noWordsLeft
    else SubmitResult.next (filter_words words guess feedback)

/-- Embeds `feedback_table[gi, ai] = feedback_to_int(get_feedback(g, a))`
(simulate_wordle.py lines 39-42), looking the words up by index. -/
def fbCode (words : List Word) (gi ai : Nat) : Nat :=
  feedback_to_int (get_feedback (words.getD gi []) (words.getD ai []))

/-- Embeds the numpy filtering step
`remaining = remaining[feedback_table[gi, remaining] == fb]`
(simulate_wordle.py line 104) on index lists. -/
def sim_filter (words : List Word) (gi : Nat) (fb : Nat) (remaining : List Nat) : List Nat :=
  remaining.filter (fun ri => decide (fbCode words gi ri = fb))

/-- C6: whenever candidate filtering yields an empty set mid-game with an
otherwise valid guess and a non-winning feedback, `submit` surfaces the
dedicated error outcome (the `No words left` dialog) and nothing else; and
in the simulation loop the true answer always survives its own filtering
step, so an empty candidate set cannot arise there and is never folded into
the round-limit (Exhausted) outcome. -/
theorem empty_filter_is_error (allowed_words words : List Word) (guess : Word)
    (feedback : List Nat) (hlen : guess.length = 5) (hmem : guess ∈ allowed_words)
    (hnot : feedback ≠ [2, 2, 2, 2, 2]) (hempty : filter_words words guess feedback = []) :
    submit allowed_words words guess feedback = SubmitResult.noWordsLeft
      ∧ (∀ (ws : List Word) (gi ai : Nat) (remaining : List Nat),
          ai ∈ remaining → ai ∈ sim_filter ws gi (fbCode ws gi ai) remaining) := by
  constructor
  · simp only [submit]
    rw [if_neg (by push_neg; exact ⟨hlen, hmem⟩), if_neg hnot, if_pos hempty]
  · intro ws gi ai remaining hmem2
    simp [sim_filter, List.mem_filter, hmem2]

/-- Witness for C6: a single-word list whose only word contradicts the
observed feedback. -/
theorem empty_filter_is_error_witness :
    submit [['a', 'b', 'c', 'd', 'e']] [['a', 'b', 'c', 'd', 'e']] ['a', 'b', 'c', 'd', 'e']
        [0, 0, 0, 0, 0] = SubmitResult.noWordsLeft
      ∧ (∀ (ws : List Word) (gi ai : Nat) (remaining : List Nat),
          ai ∈ remaining → ai ∈ sim_filter ws gi (fbCode ws gi ai) remaining) :=
  empty_filter_is_error [['a', 'b', 'c', 'd', 'e']] [['a', 'b', 'c', 'd', 'e']]
    ['a', 'b', 'c', 'd', 'e'] [0, 0, 0, 0, 0] (by decide) (by simp) (by decide) (by decide)

/-! ### The simulation game loop (claim C8) -/

/-- Embeds `MAX_GUESSES = 6` (simulate_wordle.py line 60). -/
def MAX_GUESSES : Nat := 6

/-- Entropy of a guess index over the remaining answer indices, as computed
inside `best_entropy_guess` of simulate_wordle.py (lines 50-52): bucket
counts of `feedback_table[gi, remaining]`, then `sum(probs * log2(1/probs))`
over the non-zero buckets. -/
noncomputable def sim_entropy (words : List Word) (gi : Nat) (remaining : List Nat) : ℝ :=
  entropyOfList (remaining.map (fun ri => fbCode words gi ri))

/-- Loop body of the index-based `best_entropy_guess`
(simulate_wordle.py lines 49-55): strictly greater entropy wins. -/
noncomputable def beg_idx_step (words : List Word) (remaining : List Nat)
    (best : Option Nat × ℝ) (gi : Nat) : Option Nat × ℝ :=
  let e := sim_entropy words gi remaining
  if best.2 < e then (some gi, e) else best

/-- Embeds `best_entropy_guess(remaining_idx)` of simulate_wordle.py
(lines 46-56): candidate guesses are drawn from the remaining indices only,
starting from `best_g = None`, `best_e = -1`; returns `best_g`. -/
noncomputable def best_entropy_guess_idx (words : List Word) (remaining : List Nat) :
    Option Nat :=
  (remaining.foldl (beg_idx_step words remaining) (none, -1)).1

theorem beg_idx_fold_mem (words : List Word) (remaining : List Nat) :
    ∀ (l : List Nat) (init : Option Nat × ℝ),
      (l.foldl (beg_idx_step words remaining) init).1 = init.1
        ∨ ∃ gi ∈ l, (l.foldl (beg_idx_step words remaining) init).1 = some gi := by
  intro l
  induction l with
  | nil => intro init; exact Or.inl rfl
  | cons x t ih =>
    intro init
    rw [List.foldl_cons]
    rcases ih (beg_idx_step words remaining init x) with h | ⟨gi, hgi, hh⟩
    · rw [h]
      simp only [beg_idx_step]
      split
      · exact Or.inr ⟨x, List.mem_cons_self x t, rfl⟩
      · exact Or.inl rfl
    · exact Or.inr ⟨gi, List.mem_cons_of_mem x hgi, hh⟩

theorem best_entropy_guess_idx_mem (words : List Word) (remaining : List Nat)
    (h : remaining ≠ []) :
    ∃ gi ∈ remaining, best_entropy_guess_idx words remaining = some gi := by
  cases remaining with
  | nil => exact absurd rfl h
  | cons r rs =>
    have hstep : beg_idx_step words (r :: rs) (none, -1) r
        = (some r, sim_entropy words r (r :: rs)) := by
      simp only [beg_idx_step]
      rw [if_pos]
      show (-1 : ℝ) < sim_entropy words r (r :: rs)
      have h0 : 0 ≤ sim_entropy words r (r :: rs) := entropyOfList_nonneg _
      linarith
    have : best_entropy_guess_idx words (r :: rs)
        = ((rs.foldl (beg_idx_step words (r :: rs))
            (some r, sim_entropy words r (r :: rs))).1) := by
      simp only [best_entropy_guess_idx, List.foldl_cons, hstep]
    rw [this]
    rcases beg_idx_fold_mem words (r :: rs) rs (some r, sim_entropy words r (r :: rs))
      with h1 | ⟨gi, hgi, hh⟩
    · exact ⟨r, List.mem_cons_self r rs, h1⟩
    · exact ⟨gi, List.mem_cons_of_mem r hgi, hh⟩

/-- Guess-index choice of a simulation round (simulate_wordle.py lines
91-94): the fixed opening index on round 1, the entropy-maximising
remaining index afterwards.  (`best_entropy_guess` cannot return `None`
when `remaining` is non-empty, which the loop invariant guarantees; the
`getD 0` default is therefore never taken.) -/
noncomputable def simGuess (words : List Word) (firstIdx guesses : Nat)
    (remaining : List Nat) : Nat :=
  if guesses = 1 then firstIdx else (best_entropy_guess_idx words remaining).getD 0

/-- One round of the simulation while-loop (simulate_wordle.py lines
89-104), with explicit fuel (`MAX_GUESSES - guessesMade`): each iteration
picks its guess via `simGuess`, records the `(guess index, decoded
feedback)` pair exactly as `game_words` / `game_feedbacks` do (lines
96-99), breaks when the guess index equals the answer index or the round
count reaches `MAX_GUESSES` (line 101), and otherwise filters the
remaining indices (line 104) and continues.  The fuel-0 branch is
unreachable from `simGame` because the loop always breaks by round
`MAX_GUESSES`. -/
noncomputable def simRound (words : List Word) (firstIdx ai : Nat) :
    Nat → Nat → List Nat → List (Nat × List Nat)
  | 0, _, _ => []
  | fuel + 1, guessesMade, remaining =>
      if simGuess words firstIdx (guessesMade + 1) remaining = ai
          ∨ MAX_GUESSES ≤ guessesMade + 1 then
        [(simGuess words firstIdx (guessesMade + 1) remaining,
          int_to_feedback (fbCode words (simGuess words firstIdx (guessesMade + 1) remaining) ai))]
      else
        (simGuess words firstIdx (guessesMade + 1) remaining,
          int_to_feedback (fbCode words (simGuess words firstIdx (guessesMade + 1) remaining) ai))
          :: simRound words firstIdx ai fuel (guessesMade + 1)
               (sim_filter words (simGuess words firstIdx (guessesMade + 1) remaining)
                 (fbCode words (simGuess words firstIdx (guessesMade + 1) remaining) ai) remaining)

/-- Embeds one simulated game (simulate_wordle.py lines 83-104) for the
answer index `ai`, with the fixed round-1 guess index `firstIdx`
(`fixed_first_guess_idx`, line 77) and the initial remaining set
`np.arange(N_answers)` (line 84). -/
noncomputable def simGame (words : List Word) (firstIdx ai : Nat) : List (Nat × List Nat) :=
  simRound words firstIdx ai MAX_GUESSES 0 (List.range words.length)

theorem getLast?_cons_of_ne_nil {α : Type} (a : α) (l : List α) (h : l ≠ []) :
    (a :: l).getLast? = l.getLast? := by
  cases l with
  | nil => exact absurd rfl h
  | cons b t => exact List.getLast?_cons_cons


/-- Decoding a feedback-table entry recovers the feedback pattern itself. -/
theorem fbCode_decode (words : List Word) (gi ai : Nat)
    (hgi : gi < words.length) (hai : ai < words.length)
    (hlen : ∀ w ∈ words, w.length = 5) :
    int_to_feedback (fbCode words gi ai)
      = get_feedback (words.getD gi []) (words.getD ai []) := by
  have hg5 : (words.getD gi []).length = 5 := by
    rw [List.getD_eq_getElem words [] hgi]
    exact hlen _ (words.getElem_mem hgi)
  have ha5 : (words.getD ai []).length = 5 := by
    rw [List.getD_eq_getElem words [] hai]
    exact hlen _ (words.getElem_mem hai)
  apply codec_pattern_roundtrip
  · exact get_feedback_length _ _ (le_of_eq hg5.symm) (le_of_eq ha5.symm)
  · exact fun d hd => get_feedback_digits _ _ d hd

/-- For a duplicate-free word list, a recorded feedback decodes to the
all-Correct pattern exactly when the guess index is the answer index. -/
theorem sim_entry_all2_iff (words : List Word) (gi ai : Nat)
    (hnd : words.Nodup) (hlen : ∀ w ∈ words, w.length = 5)
    (hgi : gi < words.length) (hai : ai < words.length) :
    int_to_feedback (fbCode words gi ai) = [2, 2, 2, 2, 2] ↔ gi = ai := by
  rw [fbCode_decode words gi ai hgi hai hlen]
  rw [List.getD_eq_getElem words [] hgi, List.getD_eq_getElem words [] hai]
  constructor
  · intro h
    have hw := get_feedback_all2_eq _ _ (hlen _ (words.getElem_mem hgi))
      (hlen _ (words.getElem_mem hai)) h
    exact (List.Nodup.getElem_inj_iff hnd).mp hw
  · intro h
    subst h
    exact get_feedback_self _ (hlen _ (words.getElem_mem hgi))

theorem simGuess_lt (words : List Word) (firstIdx guesses : Nat) (remaining : List Nat)
    (hfi : firstIdx < words.length) (hne : remaining ≠ [])
    (hbound : ∀ r ∈ remaining, r < words.length) :
    simGuess words firstIdx guesses remaining < words.length := by
  simp only [simGuess]
  split
  · exact hfi
  · obtain ⟨g, hg, hgeq⟩ := best_entropy_guess_idx_mem words remaining hne
    rw [hgeq]
    exact hbound g hg

theorem simRound_spec (words : List Word) (firstIdx ai : Nat)
    (hnd : words.Nodup) (hlen : ∀ w ∈ words, w.length = 5)
    (hfi : firstIdx < words.length) (hai : ai < words.length) :
    ∀ (fuel gm : Nat) (remaining : List Nat),
      fuel + gm = MAX_GUESSES → 0 < fuel → ai ∈ remaining →
      (∀ r ∈ remaining, r < words.length) →
      1 ≤ (simRound words firstIdx ai fuel gm remaining).length
      ∧ (simRound words firstIdx ai fuel gm remaining).length ≤ fuel
      ∧ (∀ e, (simRound words firstIdx ai fuel gm remaining).getLast? = some e →
          e.2 = [2, 2, 2, 2, 2]
            ∨ gm + (simRound words firstIdx ai fuel gm remaining).length = MAX_GUESSES)
      ∧ (∀ e ∈ (simRound words firstIdx ai fuel gm remaining).dropLast,
          e.2 ≠ [2, 2, 2, 2, 2]) := by
  intro fuel
  induction fuel with
  | zero =>
    intro gm remaining hsum hpos hmem hbound
    exact absurd hpos (lt_irrefl 0)
  | succ fuel ih =>
    intro gm remaining hsum hpos hmem hbound
    have hne : remaining ≠ [] := by
      intro hn
      rw [hn] at hmem
      simp at hmem
    have hgib : simGuess words firstIdx (gm + 1) remaining < words.length :=
      simGuess_lt words firstIdx (gm + 1) remaining hfi hne hbound
    have hiff := sim_entry_all2_iff words (simGuess words firstIdx (gm + 1) remaining) ai
      hnd hlen hgib hai
    simp only [simRound]
    split
    · rename_i hbreak
      refine ⟨by simp, by simp, ?_, ?_⟩
      · intro e he
        simp only [List.getLast?_singleton, Option.some.injEq] at he
        rcases hbreak with hb | hb
        · left
          rw [← he]
          exact hiff.mpr hb
        · right
          simp only [List.length_singleton]
          have hmg : MAX_GUESSES = 6 := rfl
          omega
      · intro e he
        simp at he
    · rename_i hbreak
      push_neg at hbreak
      obtain ⟨hne_idx, hlt6⟩ := hbreak
      have hmem2 : ai ∈ sim_filter words (simGuess words firstIdx (gm + 1) remaining)
          (fbCode words (simGuess words firstIdx (gm + 1) remaining) ai) remaining := by
        simp [sim_filter, List.mem_filter, hmem]
      have hbound2 : ∀ r ∈ sim_filter words (simGuess words firstIdx (gm + 1) remaining)
          (fbCode words (simGuess words firstIdx (gm + 1) remaining) ai) remaining,
          r < words.length := by
        intro r hr
        exact hbound r (List.mem_filter.mp hr).1
      have hsum2 : fuel + (gm + 1) = MAX_GUESSES := by omega
      have hpos2 : 0 < fuel := by
        have hmg : MAX_GUESSES = 6 := rfl
        omega
      obtain ⟨ih1, ih2, ih3, ih4⟩ :=
        ih (gm + 1)
          (sim_filter words (simGuess words firstIdx (gm + 1) remaining)
            (fbCode words (simGuess words firstIdx (gm + 1) remaining) ai) remaining)
          hsum2 hpos2 hmem2 hbound2
      have htne : simRound words firstIdx ai fuel (gm + 1)
          (sim_filter words (simGuess words firstIdx (gm + 1) remaining)
            (fbCode words (simGuess words firstIdx (gm + 1) remaining) ai) remaining)
          ≠ [] := by
        intro hn
        rw [hn] at ih1
        simp at ih1
      refine ⟨by simp, ?_, ?_, ?_⟩
      · simp only [List.length_cons]
        omega
      · intro e he
        rw [getLast?_cons_of_ne_nil _ _ htne] at he
        rcases ih3 e he with h2 | h2
        · exact Or.inl h2
        · right
          simp only [List.length_cons]
          omega
      · intro e he
        rw [List.dropLast_cons_of_ne_nil htne] at he
        rcases List.mem_cons.mp he with h2 | h2
        · intro hcon
          rw [h2] at hcon
          exact hne_idx (hiff.mp hcon)
        · exact ih4 e h2

/-- C8: every simulated game terminates with a non-empty record of at most
`MAX_GUESSES = 6` rounds; the game ends exactly when the recorded feedback
is all-Correct (Solved) or the round count has reached `MAX_GUESSES`
(Exhausted): the last recorded feedback is all-Correct or the record has
exactly 6 rounds, and no earlier recorded feedback is all-Correct. -/
theorem simulation_terminates (words : List Word) (firstIdx ai : Nat)
    (hnd : words.Nodup) (hlen : ∀ w ∈ words, w.length = 5)
    (hfi : firstIdx < words.length) (hai : ai < words.length) :
    simGame words firstIdx ai ≠ []
      ∧ (simGame words firstIdx ai).length ≤ MAX_GUESSES
      ∧ (∀ e, (simGame words firstIdx ai).getLast? = some e →
          e.2 = [2, 2, 2, 2, 2] ∨ (simGame words firstIdx ai).length = MAX_GUESSES)
      ∧ (∀ e ∈ (simGame words firstIdx ai).dropLast, e.2 ≠ [2, 2, 2, 2, 2]) := by
  have hgame : simGame words firstIdx ai
      = simRound words firstIdx ai MAX_GUESSES 0 (List.range words.length) := rfl
  obtain ⟨h1, h2, h3, h4⟩ := simRound_spec words firstIdx ai hnd hlen hfi hai
    MAX_GUESSES 0 (List.range words.length) rfl (by decide)
    (List.mem_range.mpr hai) (fun r hr => List.mem_range.mp hr)
  rw [hgame]
  refine ⟨?_, h2, ?_, h4⟩
  · intro hn
    rw [hn] at h1
    simp at h1
  · intro e he
    rcases h3 e he with hc | hc
    · exact Or.inl hc
    · right
      omega

/-- Witness for C8 on a two-word duplicate-free list, opening guess index 0,
answer index 1. -/
theorem simulation_terminates_witness :
    simGame [['a', 'b', 'c', 'd', 'e'], ['f', 'g', 'h', 'i', 'j']] 0 1 ≠ []
      ∧ (simGame [['a', 'b', 'c', 'd', 'e'], ['f', 'g', 'h', 'i', 'j']] 0 1).length ≤ MAX_GUESSES
      ∧ (∀ e, (simGame [['a', 'b', 'c', 'd', 'e'], ['f', 'g', 'h', 'i', 'j']] 0 1).getLast? = some e →
          e.2 = [2, 2, 2, 2, 2]
            ∨ (simGame [['a', 'b', 'c', 'd', 'e'], ['f', 'g', 'h', 'i', 'j']] 0 1).length = MAX_GUESSES)
      ∧ (∀ e ∈ (simGame [['a', 'b', 'c', 'd', 'e'], ['f', 'g', 'h', 'i', 'j']] 0 1).dropLast,
          e.2 ≠ [2, 2, 2, 2, 2]) :=
  simulation_terminates [['a', 'b', 'c', 'd', 'e'], ['f', 'g', 'h', 'i', 'j']] 0 1
    (by decide) (by decide) (by decide) (by decide)
